import Mathlib

/-!
Shallow embedding of the anchor-generation and loss-computation core of
`nets/ssd_vgg_512.py` (single-shot detector with weighted bbox regression).

Modelling conventions:
* machine floats become exact rationals (`ℚ`); integer labels become `ℤ`;
* external numeric primitives that the source calls but does not define
  (`math.sqrt`, TensorFlow's sparse softmax cross-entropy) are abstract
  function parameters of the embedded definitions;
* fallible operations (Python `assert`, list indexing that can raise
  `IndexError`, division by zero in `int` arithmetic) return `Option`;
* numpy arrays are flattened row-major into Lean lists, matching the
  `np.reshape(..., [-1, 4])` calls of the source.
-/

namespace SSD

/-- Python 2 `int(q)` on a float: truncation toward zero. -/
def ratTrunc (q : ℚ) : ℤ := if 0 ≤ q then ⌊q⌋ else ⌈q⌉

/-- Python 2 `range(start, stop, step)`: `none` models the `ValueError`
raised on a zero step. -/
def pyRange (start stop step : ℤ) : Option (List ℤ) :=
  if step = 0 then none
  else
    let len : ℕ :=
      if 0 < step then ((stop - start + step - 1).fdiv step).toNat
      else ((start - stop + (-step) - 1).fdiv (-step)).toNat
    some ((List.range len).map (fun k => start + (k : ℤ) * step))

/-- Embedding of `ssd_size_bounds_to_values`.  The leading `assert
img_shape[0] == img_shape[1]` and the Python 2 integer division by
`n_feat_layers - 2` (a `ZeroDivisionError` when `n_feat_layers = 2`) are
modelled by `Option`. -/
def ssd_size_bounds_to_values (size_bounds : ℚ × ℚ) (n_feat_layers : ℕ)
    (img_shape : ℕ × ℕ) : Option (List (ℚ × ℚ)) :=
  if img_shape.1 = img_shape.2 then
    let img_size : ℚ := img_shape.1
    let min_ratio : ℤ := ratTrunc (size_bounds.1 * 100)
    let max_ratio : ℤ := ratTrunc (size_bounds.2 * 100)
    if (n_feat_layers : ℤ) - 2 = 0 then none
    else
      let step : ℤ := (max_ratio - min_ratio).fdiv ((n_feat_layers : ℤ) - 2)
      (pyRange min_ratio (max_ratio + 1) step).map (fun rs =>
        (img_size * (4 / 100), img_size * (10 / 100)) ::
          rs.map (fun ratio =>
            (img_size * (ratio : ℚ) / 100, img_size * ((ratio : ℚ) + (step : ℚ)) / 100)))
  else none

/-- The per-cell `(w, h)` shape list of `ssd_anchor_one_layer`: the source
allocates `h = [0]*num_anchors`, `w = [0]*num_anchors` with
`num_anchors = len(sizes) + len(ratios)`, then fills index 0 from
`sizes[0]`, index 1 from `sqrt(sizes[0]*sizes[1])` when a second size is
present, and indices `di`, `di+1`, ... from the ratios (`di = 2` when two
sizes are given, else `1`); unfilled slots keep their zero initial value.
`sq` is the external `math.sqrt`. -/
def layer_hw (sq : ℚ → ℚ) (img_shape : ℕ × ℕ) (sizes ratios : List ℚ) :
    List (ℚ × ℚ) :=
  let ih : ℚ := img_shape.1
  let iw : ℚ := img_shape.2
  let s0 : ℚ := sizes.headD 0
  let di : ℕ := if 1 < sizes.length then 2 else 1
  (List.range (sizes.length + ratios.length)).map (fun k =>
    if k = 0 then (s0 / iw, s0 / ih)
    else if k = 1 ∧ 1 < sizes.length then
      (sq (s0 * sizes.getD 1 0) / iw, sq (s0 * sizes.getD 1 0) / ih)
    else if di ≤ k ∧ k < di + ratios.length then
      (s0 / iw * sq (ratios.getD (k - di) 0), s0 / ih / sq (ratios.getD (k - di) 0))
    else (0, 0))

/-- Embedding of `ssd_anchor_one_layer`: for every grid cell `(i, j)` the
centers are `y = (i + offset) * step / img_shape[0]` and
`x = (j + offset) * step / img_shape[1]`; the `(H, W, num_anchors, 4)`
array with layout `(x, y, w, h)` in the last axis is flattened row-major,
matching `np.reshape(anchors, [-1, 4])`. -/
def ssd_anchor_one_layer (sq : ℚ → ℚ) (img_shape : ℕ × ℕ)
    (feat_shape : ℕ × ℕ) (sizes ratios : List ℚ) (step : ℚ) (offset : ℚ) :
    List (ℚ × ℚ × ℚ × ℚ) :=
  let hw := layer_hw sq img_shape sizes ratios
  (List.range feat_shape.1).flatMap (fun i =>
    (List.range feat_shape.2).flatMap (fun j =>
      hw.map (fun p =>
        (((j : ℚ) + offset) * step / (img_shape.2 : ℚ),
         ((i : ℚ) + offset) * step / (img_shape.1 : ℚ), p.1, p.2))))

/-- The `for i, s in enumerate(layers_shape)` loop of
`ssd_anchors_all_layers`: at level `i` the source indexes
`anchor_sizes[i]`, `anchor_ratios[i]`, `anchor_steps[i]` (an out-of-range
index raises `IndexError`, modelled by `none`); absolute indexing into the
full lists is rendered as head/tail consumption of the suffixes. -/
def anchorsLoop (sq : ℚ → ℚ) (img_shape : ℕ × ℕ) (offset : ℚ) :
    List (ℕ × ℕ) → List (List ℚ) → List (List ℚ) → List ℚ →
    Option (List (ℚ × ℚ × ℚ × ℚ))
  | [], _, _, _ => some []
  | s :: ss, szs, rts, steps => do
      let sz ← szs.head?
      let rt ← rts.head?
      let st ← steps.head?
      let rest ← anchorsLoop sq img_shape offset ss szs.tail rts.tail steps.tail
      return ssd_anchor_one_layer sq img_shape s sz rt st offset ++ rest

/-- Embedding of `ssd_anchors_all_layers`: per-level anchors stacked
(`np.vstack`) in level order. -/
def ssd_anchors_all_layers (sq : ℚ → ℚ) (img_shape : ℕ × ℕ)
    (layers_shape : List (ℕ × ℕ)) (anchor_sizes anchor_ratios : List (List ℚ))
    (anchor_steps : List ℚ) (offset : ℚ) : Option (List (ℚ × ℚ × ℚ × ℚ)) :=
  anchorsLoop sq img_shape offset layers_shape anchor_sizes anchor_ratios anchor_steps

/-! Helper lemmas about the anchor generator. -/

theorem layer_hw_length (sq : ℚ → ℚ) (img_shape : ℕ × ℕ) (sizes ratios : List ℚ) :
    (layer_hw sq img_shape sizes ratios).length = sizes.length + ratios.length := by
  simp [layer_hw]

theorem sum_map_const_range (n c : ℕ) :
    (((List.range n).map (fun _ => c)).sum) = n * c := by
  induction n with
  | zero => simp
  | succ m ihm => rw [List.range_succ]; simp [ihm, Nat.succ_mul]

theorem getElem?_flatMap_const {β : Type} (g : ℕ → List β) (m : ℕ)
    (hg : ∀ i, (g i).length = m) :
    ∀ H i r : ℕ, i < H → r < m →
      ((List.range H).flatMap g)[i * m + r]? = (g i)[r]? := by
  intro H
  induction H with
  | zero => intro i r hi _; exact absurd hi (Nat.not_lt_zero i)
  | succ n ihn =>
    intro i r hi hr
    rw [List.range_succ, List.flatMap_append, List.flatMap_cons, List.flatMap_nil,
      List.append_nil]
    have hlen : ((List.range n).flatMap g).length = n * m := by
      rw [List.length_flatMap]
      have : (List.range n).map (List.length ∘ g) = (List.range n).map (fun _ => m) :=
        List.map_congr_left (fun a _ => hg a)
      rw [this, sum_map_const_range]
    rcases Nat.lt_or_ge i n with hin | hin
    · have hidx : i * m + r < n * m := by
        calc i * m + r < i * m + m := by omega
        _ = (i + 1) * m := by ring
        _ ≤ n * m := Nat.mul_le_mul_right m hin
      rw [List.getElem?_append, if_pos (by rw [hlen]; exact hidx)]
      exact ihn i r hin hr
    · have hieq : i = n := by omega
      subst hieq
      rw [List.getElem?_append_right (by rw [hlen]; exact Nat.le_add_right _ _), hlen,
        Nat.add_sub_cancel_left]

theorem length_flatMap_const {α β : Type} (m : ℕ) {l : List α} {f : α → List β}
    (hf : ∀ a ∈ l, (f a).length = m) : (l.flatMap f).length = l.length * m := by
  induction l with
  | nil => simp
  | cons a t iht =>
    rw [List.flatMap_cons, List.length_append, hf a (by simp),
      iht (fun b hb => hf b (by simp [hb])), List.length_cons]
    ring

theorem ssd_anchor_one_layer_length (sq : ℚ → ℚ) (img_shape feat_shape : ℕ × ℕ)
    (sizes ratios : List ℚ) (step offset : ℚ) :
    (ssd_anchor_one_layer sq img_shape feat_shape sizes ratios step offset).length
      = feat_shape.1 * feat_shape.2 * (sizes.length + ratios.length) := by
  rw [ssd_anchor_one_layer]
  rw [length_flatMap_const (feat_shape.2 * (sizes.length + ratios.length))
      (by intro i _
          show (List.flatMap _ _).length = _
          rw [length_flatMap_const (sizes.length + ratios.length)
              (by intro j _
                  show (List.map _ _).length = _
                  rw [List.length_map, layer_hw_length])]
          rw [List.length_range])]
  rw [List.length_range, Nat.mul_assoc]

theorem ssd_anchor_one_layer_getElem? (sq : ℚ → ℚ) (imgh imgw H W : ℕ)
    (sizes ratios : List ℚ) (step offset : ℚ) (i j k : ℕ)
    (hi : i < H) (hj : j < W) (hk : k < sizes.length + ratios.length) :
    (ssd_anchor_one_layer sq (imgh, imgw) (H, W) sizes ratios step offset)[
        (i * W + j) * (sizes.length + ratios.length) + k]?
      = ((layer_hw sq (imgh, imgw) sizes ratios)[k]?).map (fun p =>
          (((j : ℚ) + offset) * step / (imgw : ℚ),
           ((i : ℚ) + offset) * step / (imgh : ℚ), p.1, p.2)) := by
  have hg2 : ∀ a : ℕ, ∀ b : ℕ,
      ((layer_hw sq (imgh, imgw) sizes ratios).map (fun p =>
        (((a : ℚ) + offset) * step / (imgw : ℚ),
         ((b : ℚ) + offset) * step / (imgh : ℚ), p.1, p.2))).length
        = sizes.length + ratios.length := by
    intro a b; rw [List.length_map, layer_hw_length]
  have hg1 : ∀ a : ℕ,
      ((List.range W).flatMap (fun jj : ℕ =>
        (layer_hw sq (imgh, imgw) sizes ratios).map (fun p =>
          (((jj : ℚ) + offset) * step / (imgw : ℚ),
           ((a : ℚ) + offset) * step / (imgh : ℚ), p.1, p.2)))).length
        = W * (sizes.length + ratios.length) := by
    intro a
    rw [length_flatMap_const (sizes.length + ratios.length)
        (fun b _ => hg2 b a), List.length_range]
  have hnum : (i * W + j) * (sizes.length + ratios.length) + k
      = i * (W * (sizes.length + ratios.length))
        + (j * (sizes.length + ratios.length) + k) := by ring
  have hlt : j * (sizes.length + ratios.length) + k
      < W * (sizes.length + ratios.length) := by
    calc j * (sizes.length + ratios.length) + k
        < j * (sizes.length + ratios.length) + (sizes.length + ratios.length) := by omega
      _ = (j + 1) * (sizes.length + ratios.length) := by ring
      _ ≤ W * (sizes.length + ratios.length) := Nat.mul_le_mul_right _ hj
  simp only [ssd_anchor_one_layer]
  rw [hnum, getElem?_flatMap_const _ _ hg1 H i _ hi hlt]
  rw [getElem?_flatMap_const _ _ (fun a => hg2 a i) W j k hj hk]
  rw [List.getElem?_map]

/-- C6: for every grid cell (row i, col j), offset, stride and image shape,
the anchor emitted at flat position `(i*W + j)*num_anchors + k` has center
`center_x = (j + offset) * step / image_width` and
`center_y = (i + offset) * step / image_height`; and the single-level
scenario with feature shape 2x2, one size 100, no ratios, image shape
(512,512), stride 256 and offset 1/2 yields exactly 4 anchors with centers
(1/4,1/4), (3/4,1/4), (1/4,3/4), (3/4,3/4) and width = height = 100/512. -/
theorem anchor_centers_stride_grid_c6 (sq : ℚ → ℚ) (imgh imgw H W : ℕ)
    (sizes ratios : List ℚ) (step offset : ℚ) (i j k : ℕ)
    (hi : i < H) (hj : j < W) (hk : k < sizes.length + ratios.length) :
    (((ssd_anchor_one_layer sq (imgh, imgw) (H, W) sizes ratios step offset)[
        (i * W + j) * (sizes.length + ratios.length) + k]?).map
          (fun t => (t.1, t.2.1)))
      = some (((j : ℚ) + offset) * step / (imgw : ℚ),
              ((i : ℚ) + offset) * step / (imgh : ℚ))
    ∧ ssd_anchor_one_layer Rat.sqrt (512, 512) (2, 2) [100] [] 256 (1 / 2)
      = [(1/4, 1/4, 25/128, 25/128), (3/4, 1/4, 25/128, 25/128),
         (1/4, 3/4, 25/128, 25/128), (3/4, 3/4, 25/128, 25/128)] := by
  constructor
  · rw [ssd_anchor_one_layer_getElem? sq imgh imgw H W sizes ratios step offset
        i j k hi hj hk]
    have hk' : k < (layer_hw sq (imgh, imgw) sizes ratios).length := by
      rw [layer_hw_length]; exact hk
    rw [List.getElem?_eq_getElem hk']
    rfl
  · norm_num [ssd_anchor_one_layer, layer_hw, List.range_succ]

/-- Witness for C6 at the concrete scenario's inputs, cell (0, 1), anchor 0. -/
theorem anchor_centers_stride_grid_c6_witness :
    (0 : ℕ) < 2 ∧ (1 : ℕ) < 2
    ∧ (0 : ℕ) < ([(100 : ℚ)]).length + ([] : List ℚ).length
    ∧ ((((ssd_anchor_one_layer Rat.sqrt (512, 512) (2, 2) [100] [] 256 (1 / 2))[
          (0 * 2 + 1) * (([(100 : ℚ)]).length + ([] : List ℚ).length) + 0]?).map
            (fun t => (t.1, t.2.1)))
        = some ((((1 : ℕ) : ℚ) + 1 / 2) * 256 / ((512 : ℕ) : ℚ),
                (((0 : ℕ) : ℚ) + 1 / 2) * 256 / ((512 : ℕ) : ℚ))
      ∧ ssd_anchor_one_layer Rat.sqrt (512, 512) (2, 2) [100] [] 256 (1 / 2)
        = [(1/4, 1/4, 25/128, 25/128), (3/4, 1/4, 25/128, 25/128),
           (1/4, 3/4, 25/128, 25/128), (3/4, 3/4, 25/128, 25/128)]) :=
  ⟨by decide, by decide, by decide,
    anchor_centers_stride_grid_c6 Rat.sqrt 512 512 2 2 [100] [] 256 (1 / 2)
      0 1 0 (by decide) (by decide) (by decide)⟩

/-- C7: for a level with reference sizes `[s0]` or `[s0, s1]` and ratio
list `R`, the per-cell shape list has length |sizes| + |ratios| and this
fixed order and content: anchor 0 is `(s0/image_width, s0/image_height)`;
anchor 1 exists exactly when a second size `s1` is present and has
width = height = `sqrt(s0*s1)` relative; the remaining anchors, one per
ratio `r` in `R`'s order, have height `(s0/image_height)/sqrt(r)` and
width `(s0/image_width)*sqrt(r)`, using only the first size. -/
theorem shape_list_order_c7 (sq : ℚ → ℚ) (imgh imgw : ℕ) (s0 : ℚ)
    (s1? : Option ℚ) (R : List ℚ) :
    layer_hw sq (imgh, imgw) (s0 :: s1?.toList) R
      = (s0 / (imgw : ℚ), s0 / (imgh : ℚ))
        :: (s1?.toList.map (fun s1 =>
              (sq (s0 * s1) / (imgw : ℚ), sq (s0 * s1) / (imgh : ℚ)))
           ++ R.map (fun r =>
              (s0 / (imgw : ℚ) * sq r, s0 / (imgh : ℚ) / sq r))) := by
  cases s1? with
  | none =>
    apply List.ext_getElem
    · simp [layer_hw]; omega
    · intro n h1 h2
      simp only [layer_hw, Option.toList, List.getElem_map, List.getElem_range,
        List.length_cons, List.length_nil, List.length_map] at h1 ⊢
      match n with
      | 0 => simp
      | Nat.succ m =>
        have hm : m < R.length := by
          simp [layer_hw] at h1; omega
        rw [if_neg (by omega), if_neg (by simp), if_pos (by simp; omega)]
        simp [List.getD_eq_getElem?_getD, List.getElem?_eq_getElem hm,
          List.getElem_cons_succ, List.getElem_append_right, List.getElem_map]
  | some s1 =>
    apply List.ext_getElem
    · simp [layer_hw]; omega
    · intro n h1 h2
      simp only [layer_hw, Option.toList, List.getElem_map, List.getElem_range,
        List.length_cons, List.length_nil, List.length_map] at h1 ⊢
      match n with
      | 0 => simp
      | 1 => simp
      | Nat.succ (Nat.succ m) =>
        have hm : m < R.length := by
          simp [layer_hw] at h1; omega
        rw [if_neg (by omega), if_neg (by omega), if_pos (by simp; omega)]
        simp [List.getD_eq_getElem?_getD, List.getElem?_eq_getElem hm,
          List.getElem_cons_succ, List.getElem_append_right, List.getElem_map]

theorem anchorsLoop_eq_zip (sq : ℚ → ℚ) (img : ℕ × ℕ) (offset : ℚ) :
    ∀ (ls : List (ℕ × ℕ)) (szs rts : List (List ℚ)) (steps : List ℚ),
    szs.length = ls.length → rts.length = ls.length → steps.length = ls.length →
    anchorsLoop sq img offset ls szs rts steps
      = some ((ls.zip (szs.zip (rts.zip steps))).flatMap
          (fun q => ssd_anchor_one_layer sq img q.1 q.2.1 q.2.2.1 q.2.2.2 offset)) := by
  intro ls
  induction ls with
  | nil =>
    intro szs rts steps _ _ _
    simp [anchorsLoop]
  | cons s ss ihs =>
    intro szs rts steps h1 h2 h3
    match szs, rts, steps with
    | sz :: szs', rt :: rts', st :: steps' =>
      simp only [anchorsLoop, List.head?, List.tail, Option.bind_some]
      rw [ihs szs' rts' steps' (by simpa using h1) (by simpa using h2)
        (by simpa using h3)]
      simp [List.zip_cons_cons]

theorem zip_flatMap_length (sq : ℚ → ℚ) (img : ℕ × ℕ) (offset : ℚ) :
    ∀ (ls : List (ℕ × ℕ)) (szs rts : List (List ℚ)) (steps : List ℚ),
    szs.length = ls.length → rts.length = ls.length → steps.length = ls.length →
    ((ls.zip (szs.zip (rts.zip steps))).flatMap
        (fun q => ssd_anchor_one_layer sq img q.1 q.2.1 q.2.2.1 q.2.2.2 offset)).length
      = ((ls.zip (szs.zip rts)).map
          (fun q => q.1.1 * q.1.2 * (q.2.1.length + q.2.2.length))).sum := by
  intro ls
  induction ls with
  | nil => intro szs rts steps _ _ _; simp
  | cons s ss ihs =>
    intro szs rts steps h1 h2 h3
    match szs, rts, steps with
    | sz :: szs', rt :: rts', st :: steps' =>
      simp only [List.zip_cons_cons, List.flatMap_cons, List.length_append,
        List.map_cons, List.sum_cons, ssd_anchor_one_layer_length]
      rw [ihs szs' rts' steps' (by simpa using h1) (by simpa using h2)
        (by simpa using h3)]

/-- C8: for a valid configuration (matching per-level list lengths) the
generated anchor set is the level-order concatenation of the per-level
flattened anchor arrays, and its total length is the sum over levels of
`H * W * (|sizes| + |ratios|)`. -/
theorem anchorset_concat_count_c8 (sq : ℚ → ℚ) (img : ℕ × ℕ) (offset : ℚ)
    (ls : List (ℕ × ℕ)) (szs rts : List (List ℚ)) (steps : List ℚ)
    (h1 : szs.length = ls.length) (h2 : rts.length = ls.length)
    (h3 : steps.length = ls.length) :
    ssd_anchors_all_layers sq img ls szs rts steps offset
      = some ((ls.zip (szs.zip (rts.zip steps))).flatMap
          (fun q => ssd_anchor_one_layer sq img q.1 q.2.1 q.2.2.1 q.2.2.2 offset))
    ∧ ((ls.zip (szs.zip (rts.zip steps))).flatMap
          (fun q => ssd_anchor_one_layer sq img q.1 q.2.1 q.2.2.1 q.2.2.2 offset)).length
        = ((ls.zip (szs.zip rts)).map
            (fun q => q.1.1 * q.1.2 * (q.2.1.length + q.2.2.length))).sum :=
  ⟨anchorsLoop_eq_zip sq img offset ls szs rts steps h1 h2 h3,
   zip_flatMap_length sq img offset ls szs rts steps h1 h2 h3⟩

/-- Witness for C8 at a concrete two-level configuration. -/
theorem anchorset_concat_count_c8_witness :
    ([[20, 45], [30]] : List (List ℚ)).length = ([(2, 2), (1, 1)] : List (ℕ × ℕ)).length
    ∧ ([[4], []] : List (List ℚ)).length = ([(2, 2), (1, 1)] : List (ℕ × ℕ)).length
    ∧ ([256, 512] : List ℚ).length = ([(2, 2), (1, 1)] : List (ℕ × ℕ)).length
    ∧ (ssd_anchors_all_layers Rat.sqrt (512, 512) [(2, 2), (1, 1)]
          [[20, 45], [30]] [[4], []] [256, 512] (1 / 2)
        = some ((([(2, 2), (1, 1)] : List (ℕ × ℕ)).zip
            (([[20, 45], [30]] : List (List ℚ)).zip
              (([[4], []] : List (List ℚ)).zip ([256, 512] : List ℚ)))).flatMap
            (fun q => ssd_anchor_one_layer Rat.sqrt (512, 512) q.1 q.2.1 q.2.2.1 q.2.2.2 (1 / 2)))
      ∧ ((([(2, 2), (1, 1)] : List (ℕ × ℕ)).zip
            (([[20, 45], [30]] : List (List ℚ)).zip
              (([[4], []] : List (List ℚ)).zip ([256, 512] : List ℚ)))).flatMap
            (fun q => ssd_anchor_one_layer Rat.sqrt (512, 512) q.1 q.2.1 q.2.2.1 q.2.2.2 (1 / 2))).length
          = ((([(2, 2), (1, 1)] : List (ℕ × ℕ)).zip
              (([[20, 45], [30]] : List (List ℚ)).zip ([[4], []] : List (List ℚ)))).map
              (fun q => q.1.1 * q.1.2 * (q.2.1.length + q.2.2.length))).sum) :=
  ⟨by decide, by decide, by decide,
    anchorset_concat_count_c8 Rat.sqrt (512, 512) (1 / 2) [(2, 2), (1, 1)]
      [[20, 45], [30]] [[4], []] [256, 512] (by decide) (by decide) (by decide)⟩

theorem anchorsLoop_short_none (sq : ℚ → ℚ) (img : ℕ × ℕ) (offset : ℚ) :
    ∀ (ls : List (ℕ × ℕ)) (szs rts : List (List ℚ)) (steps : List ℚ),
    szs.length < ls.length ∨ rts.length < ls.length ∨ steps.length < ls.length →
    anchorsLoop sq img offset ls szs rts steps = none := by
  intro ls
  induction ls with
  | nil => intro szs rts steps hlt; simp at hlt
  | cons s ss ihs =>
    intro szs rts steps hlt
    match szs, rts, steps with
    | [], _, _ => simp [anchorsLoop]
    | _ :: _, [], _ => simp [anchorsLoop]
    | _ :: _, _ :: _, [] => simp [anchorsLoop]
    | sz :: szs', rt :: rts', st :: steps' =>
      have : szs'.length < ss.length ∨ rts'.length < ss.length
          ∨ steps'.length < ss.length := by
        simp only [List.length_cons] at hlt; omega
      simp [anchorsLoop, ihs szs' rts' steps' this]

theorem anchorsLoop_ignores_extra (sq : ℚ → ℚ) (img : ℕ × ℕ) (offset : ℚ) :
    ∀ (ls : List (ℕ × ℕ)) (szs rts : List (List ℚ)) (steps : List ℚ)
      (e1 e2 : List (List ℚ)) (e3 : List ℚ),
    ls.length ≤ szs.length → ls.length ≤ rts.length → ls.length ≤ steps.length →
    anchorsLoop sq img offset ls (szs ++ e1) (rts ++ e2) (steps ++ e3)
      = anchorsLoop sq img offset ls szs rts steps := by
  intro ls
  induction ls with
  | nil => intro szs rts steps e1 e2 e3 _ _ _; simp [anchorsLoop]
  | cons s ss ihs =>
    intro szs rts steps e1 e2 e3 h1 h2 h3
    match szs, rts, steps with
    | sz :: szs', rt :: rts', st :: steps' =>
      simp only [List.cons_append, anchorsLoop, List.head?, List.tail,
        Option.bind_some]
      rw [ihs szs' rts' steps' e1 e2 e3 (by simpa using h1) (by simpa using h2)
        (by simpa using h3)]

/-- C9 counterexample: at the concrete non-square image shape (512, 256)
the anchor generator produces anchors instead of raising, and with one
level but two entries in each per-level list the extra entries are
silently ignored instead of raising a configuration error. -/
theorem config_checks_c9_counterexample :
    ssd_anchors_all_layers Rat.sqrt (512, 256) [(2, 2)] [[100]] [[]] [256] (1 / 2)
      = some [(1/2, 1/4, 25/64, 25/128), (3/2, 1/4, 25/64, 25/128),
              (1/2, 3/4, 25/64, 25/128), (3/2, 3/4, 25/64, 25/128)]
    ∧ ssd_anchors_all_layers Rat.sqrt (512, 512) [(1, 1)]
        [[100], [200]] [[], []] [256, 512] (1 / 2)
      = some [(1/4, 1/4, 25/128, 25/128)] := by
  constructor
  · norm_num [ssd_anchors_all_layers, anchorsLoop, ssd_anchor_one_layer,
      layer_hw, List.range_succ]
  · norm_num [ssd_anchors_all_layers, anchorsLoop, ssd_anchor_one_layer,
      layer_hw, List.range_succ]

/-- C9 amended: only `ssd_size_bounds_to_values` rejects non-square image
shapes; `ssd_anchors_all_layers` performs no squareness check, raises an
index error exactly when some per-level size/ratio/step list is shorter
than the levels list, and silently ignores extra entries when the levels
list is the shorter one. -/
theorem config_checks_c9_amended (sb : ℚ × ℚ) (n imh imw : ℕ) (hne : imh ≠ imw)
    (sq : ℚ → ℚ) (img : ℕ × ℕ) (offset : ℚ) (ls : List (ℕ × ℕ))
    (szs rts : List (List ℚ)) (steps : List ℚ) :
    ssd_size_bounds_to_values sb n (imh, imw) = none
    ∧ (szs.length < ls.length ∨ rts.length < ls.length ∨ steps.length < ls.length →
        ssd_anchors_all_layers sq img ls szs rts steps offset = none)
    ∧ (∀ (e1 e2 : List (List ℚ)) (e3 : List ℚ),
        ls.length ≤ szs.length → ls.length ≤ rts.length → ls.length ≤ steps.length →
        ssd_anchors_all_layers sq img ls (szs ++ e1) (rts ++ e2) (steps ++ e3) offset
          = ssd_anchors_all_layers sq img ls szs rts steps offset) :=
  ⟨by simp [ssd_size_bounds_to_values, hne],
   fun hlt => anchorsLoop_short_none sq img offset ls szs rts steps hlt,
   fun e1 e2 e3 a1 a2 a3 =>
     anchorsLoop_ignores_extra sq img offset ls szs rts steps e1 e2 e3 a1 a2 a3⟩

/-- Witness for the amended C9 at a concrete non-square shape and a
concrete length mismatch. -/
theorem config_checks_c9_amended_witness :
    (512 : ℕ) ≠ 256
    ∧ (ssd_size_bounds_to_values (1/10, 9/10) 7 (512, 256) = none
      ∧ (([[100]] : List (List ℚ)).length < ([(1, 1)] : List (ℕ × ℕ)).length
          ∨ ([[]] : List (List ℚ)).length < ([(1, 1)] : List (ℕ × ℕ)).length
          ∨ ([256] : List ℚ).length < ([(1, 1)] : List (ℕ × ℕ)).length →
          ssd_anchors_all_layers Rat.sqrt (512, 512) [(1, 1)] [[100]] [[]] [256] (1/2) = none)
      ∧ (∀ (e1 e2 : List (List ℚ)) (e3 : List ℚ),
          ([(1, 1)] : List (ℕ × ℕ)).length ≤ ([[100]] : List (List ℚ)).length →
          ([(1, 1)] : List (ℕ × ℕ)).length ≤ ([[]] : List (List ℚ)).length →
          ([(1, 1)] : List (ℕ × ℕ)).length ≤ ([256] : List ℚ).length →
          ssd_anchors_all_layers Rat.sqrt (512, 512) [(1, 1)]
              ([[100]] ++ e1) ([[]] ++ e2) ([256] ++ e3) (1/2)
            = ssd_anchors_all_layers Rat.sqrt (512, 512) [(1, 1)] [[100]] [[]] [256] (1/2))) :=
  ⟨by decide,
    config_checks_c9_amended (1/10, 9/10) 7 512 256 (by decide) Rat.sqrt
      (512, 512) (1/2) [(1, 1)] [[100]] [[]] [256]⟩

/-! The loss engine `ssd_losses`. -/

/-- Per-anchor data consumed by `ssd_losses`, one record per anchor of one
image: predicted class confidences (softmax output, background class at
index 0), raw class logits, predicted localization offsets, ground-truth
class (`> 0` means positive), ground-truth localization target, and
ground-truth match score. -/
structure AnchorT where
  conf : List ℚ
  logits : List ℚ
  loc : List ℚ
  gclass : ℤ
  gloc : List ℚ
  gscore : ℚ

/-- One entry of `float_pos_mask = tf.cast(gclasses > 0, dtype)`. -/
def posInd (a : AnchorT) : ℚ := if 0 < a.gclass then 1 else 0

/-- One entry of `tf.cast(neg_mask, dtype)` with `neg_mask = ¬pos_mask`. -/
def negInd (a : AnchorT) : ℚ := if 0 < a.gclass then 0 else 1

/-- One entry of
`nvalues = tf.where(neg_mask, confidences[:, :, 0], float_pos_mask)`:
the predicted background-class confidence for a negative anchor, 1.0 for
a positive anchor. -/
def nvalue (a : AnchorT) : ℚ := if 0 < a.gclass then 1 else a.conf.headD 0

/-- `n_pos = tf.reduce_sum(img_float_pos_mask)`. -/
def posCount (img : List AnchorT) : ℚ := (img.map posInd).sum

/-- `max_neg_entries = tf.reduce_sum(img_float_neg_mask)`. -/
def negCount (img : List AnchorT) : ℚ := (img.map negInd).sum

/-- `n_neg = tf.cast(tf.minimum(max_neg_entries, n_pos * negative_ratio),
tf.int32)` as a natural number (the TF cast truncates toward zero). -/
def nNegOf (ratio : ℚ) (img : List AnchorT) : ℕ :=
  (ratTrunc (min (negCount img) (posCount img * ratio))).toNat

/-- `min_val = val[-1]` of `tf.nn.top_k(-img_neg_conf, k=n_neg)`: the top-k
of the negated mining values sorted descending ends with minus the k-th
smallest mining value, so `-min_val` is the `n_neg`-th smallest entry of
the per-anchor mining values. -/
def miningCutoff (ratio : ℚ) (img : List AnchorT) : ℚ :=
  (List.insertionSort (· ≤ ·) (img.map nvalue)).getD (nNegOf ratio img - 1) 0

/-- Per-image hard-negative selection of `ssd_losses`:
`tf.cond(n_pos > 0, has_pos, no_pos)` with
`selected_img_neg = tf.logical_and(img_neg_mask, img_neg_conf <= -min_val)`
cast to float in the positive branch, and a zero vector otherwise. -/
def selectedNegImage (ratio : ℚ) (img : List AnchorT) : List ℚ :=
  if 0 < posCount img then
    img.map (fun a =>
      if ¬ 0 < a.gclass ∧ nvalue a ≤ miningCutoff ratio img then (1 : ℚ) else 0)
  else img.map (fun _ => 0)

/-- Modelled from the spec: `custom_layers.abs_smooth`, called by
`ssd_losses` but defined in `nets/custom_layers.py` which is absent from
this snapshot; the spec's numeric contract reads "for per-coordinate error
e, penalty = 0.5*e² when |e| < 1, else |e| - 0.5". -/
def abs_smooth (e : ℚ) : ℚ := if |e| < 1 then e ^ 2 / 2 else |e| - 1 / 2

/-- Embedding of `ssd_losses`, returning the pair (classification loss,
localization loss).  `ce` is the external
`tf.nn.sparse_softmax_cross_entropy_with_logits` applied per anchor;
`cls_weight = selected_neg + float_pos_mask`;
`N = tf.reduce_sum(float_pos_mask)` over the whole batch; both losses are
guarded by `tf.cond(N > 0, has_pos, no_pos)` with `no_pos` returning the
constant 0.  The `label_smoothing` argument is accepted, as in the source
signature, and never read. -/
def ssd_losses (ce : List ℚ → ℤ → ℚ)
    (negative_ratio alpha label_smoothing : ℚ)
    (batch : List (List AnchorT)) : ℚ × ℚ :=
  let N : ℚ := (batch.map posCount).sum
  let cls_loss : ℚ :=
    if 0 < N then
      (batch.map (fun img =>
        (List.zipWith (fun a w => ce a.logits a.gclass * w) img
          (List.zipWith (· + ·) (selectedNegImage negative_ratio img)
            (img.map posInd))).sum)).sum / N
    else 0
  let loc_loss : ℚ :=
    if 0 < N then
      alpha * (batch.map (fun img =>
        (img.map (fun a =>
          (List.zipWith (fun l g => abs_smooth (l - g)) a.loc a.gloc).sum
            * posInd a)).sum)).sum / N
    else 0
  (cls_loss, loc_loss)

/-- C1: when every anchor of every image in the batch has ground-truth
class 0 the total positive count N is 0, and `ssd_losses` returns
classification loss exactly 0 and localization loss exactly 0 (both
`tf.cond` branches take the constant-zero path; in this exact-rational
model no NaN/Inf value exists to propagate). -/
theorem zero_positive_batch_c1 (ce : List ℚ → ℤ → ℚ) (r al lsm : ℚ)
    (batch : List (List AnchorT))
    (h : ∀ img ∈ batch, ∀ a ∈ img, a.gclass = 0) :
    ssd_losses ce r al lsm batch = (0, 0) := by
  have hN : (batch.map posCount).sum = 0 := by
    apply List.sum_eq_zero
    intro x hx
    simp only [List.mem_map] at hx
    obtain ⟨img, him, rfl⟩ := hx
    apply List.sum_eq_zero
    intro y hy
    simp only [List.mem_map] at hy
    obtain ⟨a, ha, rfl⟩ := hy
    simp [posInd, h img him a ha]
  simp [ssd_losses, hN]

/-- A one-image batch whose only anchor is background. -/
def batchAllNeg : List (List AnchorT) :=
  [[⟨[9/10], [0, 0], [1, 2], 0, [0, 0], 0⟩]]

/-- An arbitrary concrete stand-in for the external cross-entropy. -/
def ceArb : List ℚ → ℤ → ℚ := fun l g => l.sum + (g : ℚ)

/-- Witness for C1 on a concrete all-background batch. -/
theorem zero_positive_batch_c1_witness :
    (∀ img ∈ batchAllNeg, ∀ a ∈ img, a.gclass = 0)
    ∧ ssd_losses ceArb 3 1 0 batchAllNeg = (0, 0) :=
  ⟨by decide, zero_positive_batch_c1 ceArb 3 1 0 batchAllNeg (by decide)⟩

/-- C3: for an image with zero positive anchors the per-image selection
takes the `no_pos` branch and returns the all-zero weight vector — no
negative is selected and the top-k path is not taken. -/
theorem no_pos_selects_zero_c3 (r : ℚ) (img : List AnchorT)
    (h : posCount img = 0) :
    selectedNegImage r img = img.map (fun _ => 0) := by
  rw [selectedNegImage, if_neg (by rw [h]; exact lt_irrefl 0)]

/-- Witness for C3 on a concrete two-anchor all-background image. -/
theorem no_pos_selects_zero_c3_witness :
    posCount [(⟨[1/10], [0], [0], 0, [0], 0⟩ : AnchorT),
              ⟨[2/10], [0], [0], -1, [0], 0⟩] = 0
    ∧ selectedNegImage 3 [(⟨[1/10], [0], [0], 0, [0], 0⟩ : AnchorT),
        ⟨[2/10], [0], [0], -1, [0], 0⟩]
      = [(⟨[1/10], [0], [0], 0, [0], 0⟩ : AnchorT),
         ⟨[2/10], [0], [0], -1, [0], 0⟩].map (fun _ => 0) :=
  ⟨by norm_num [posCount, posInd],
   no_pos_selects_zero_c3 3 _ (by norm_num [posCount, posInd])⟩

/-- C10: the returned losses do not depend on the `label_smoothing`
argument — it is accepted in the signature of `ssd_losses` and never read,
so any two values give identical classification and localization losses. -/
theorem label_smoothing_unused_c10 (ce : List ℚ → ℤ → ℚ) (r al lsm1 lsm2 : ℚ)
    (batch : List (List AnchorT)) :
    ssd_losses ce r al lsm1 batch = ssd_losses ce r al lsm2 batch := rfl

theorem selectedNegImage_struct (r : ℚ) (img : List AnchorT) :
    ∃ g : AnchorT → ℚ, selectedNegImage r img = img.map g
      ∧ ∀ a : AnchorT, (0 < a.gclass → g a = 0) ∧ (g a = 0 ∨ g a = 1) := by
  by_cases hp : 0 < posCount img
  · refine ⟨fun a =>
      if ¬ 0 < a.gclass ∧ nvalue a ≤ miningCutoff r img then (1 : ℚ) else 0,
      by rw [selectedNegImage, if_pos hp], fun a => ⟨fun hpos => ?_, ?_⟩⟩
    · exact if_neg (fun hand => hand.1 hpos)
    · by_cases hc : ¬ 0 < a.gclass ∧ nvalue a ≤ miningCutoff r img
      · right; exact if_pos hc
      · left; exact if_neg hc
  · exact ⟨fun _ => 0, by rw [selectedNegImage, if_neg hp],
      fun a => ⟨fun _ => rfl, Or.inl rfl⟩⟩

/-- C4: when the batch has a positive anchor, the classification loss is
the per-anchor cross-entropy weighted by 1 on positive anchors, 1 on
selected hard negatives and 0 on every other negative anchor, summed and
divided by the batch-wide positive count N (in particular
`cls_weight = selected_neg + float_pos_mask` never reaches 2, because
selected negatives are negative anchors). -/
theorem cls_loss_formula_c4 (ce : List ℚ → ℤ → ℚ) (r al lsm : ℚ)
    (batch : List (List AnchorT)) (hN : 0 < (batch.map posCount).sum) :
    (ssd_losses ce r al lsm batch).1
      = (batch.map (fun img =>
          (List.zipWith (fun a s => ce a.logits a.gclass *
              (if 0 < a.gclass then 1 else if s = 1 then 1 else 0))
            img (selectedNegImage r img)).sum)).sum
        / (batch.map posCount).sum := by
  simp only [ssd_losses, if_pos hN]
  congr 1
  refine congrArg List.sum (List.map_congr_left fun img _ => ?_)
  obtain ⟨g, hg, hprop⟩ := selectedNegImage_struct r img
  rw [hg]
  rw [List.zipWith_map (· + ·) g posInd img img, List.zipWith_same]
  rw [List.zipWith_map_right, List.zipWith_same]
  rw [List.zipWith_map_right img img g, List.zipWith_same]
  refine congrArg List.sum (List.map_congr_left fun a _ => ?_)
  by_cases hp : 0 < a.gclass
  · simp [posInd, hp, (hprop a).1 hp]
  · rcases (hprop a).2 with h0 | h1
    · simp [posInd, hp, h0]
    · simp [posInd, hp, h1]

/-- A one-image batch with one positive and one background anchor. -/
def batchPos : List (List AnchorT) :=
  [[⟨[1/10], [0, 1], [1], 3, [1], 1⟩, ⟨[9/10], [2, 0], [0], 0, [0], 0⟩]]

/-- Witness for C4 on a concrete batch with one positive anchor. -/
theorem cls_loss_formula_c4_witness :
    0 < (batchPos.map posCount).sum
    ∧ (ssd_losses ceArb 3 1 0 batchPos).1
      = (batchPos.map (fun img =>
          (List.zipWith (fun a s => ceArb a.logits a.gclass *
              (if 0 < a.gclass then 1 else if s = 1 then 1 else 0))
            img (selectedNegImage 3 img)).sum)).sum
        / (batchPos.map posCount).sum :=
  ⟨by norm_num [batchPos, posCount, posInd],
   cls_loss_formula_c4 ceArb 3 1 0 batchPos
     (by norm_num [batchPos, posCount, posInd])⟩

/-- Per-anchor relation for C5: the two anchors agree on everything except
that the predicted localization may differ when the ground-truth class
is 0 (background). -/
def locPerturb (a b : AnchorT) : Prop :=
  b.conf = a.conf ∧ b.logits = a.logits ∧ b.gclass = a.gclass
    ∧ b.gloc = a.gloc ∧ b.gscore = a.gscore ∧ (a.gclass ≠ 0 → b.loc = a.loc)

theorem posCount_locPerturb {img img' : List AnchorT}
    (h : List.Forall₂ locPerturb img img') : posCount img' = posCount img := by
  induction h with
  | nil => rfl
  | @cons a b l1 l2 hab htail ih =>
    simp only [posCount, List.map_cons, List.sum_cons] at ih ⊢
    rw [ih, posInd, posInd, hab.2.2.1]

theorem locSum_locPerturb {img img' : List AnchorT}
    (h : List.Forall₂ locPerturb img img') :
    (img'.map (fun a =>
        (List.zipWith (fun l g => abs_smooth (l - g)) a.loc a.gloc).sum
          * posInd a)).sum
      = (img.map (fun a =>
          (List.zipWith (fun l g => abs_smooth (l - g)) a.loc a.gloc).sum
            * posInd a)).sum := by
  induction h with
  | nil => rfl
  | @cons a b l1 l2 hab htail ih =>
    simp only [List.map_cons, List.sum_cons]
    rw [ih]
    obtain ⟨-, -, hgc, hgl, -, hloc⟩ := hab
    by_cases hp : 0 < a.gclass
    · rw [hloc hp.ne', hgl, posInd, posInd, hgc]
    · have hb : posInd b = 0 := by rw [posInd, hgc, if_neg hp]
      have ha : posInd a = 0 := by rw [posInd, if_neg hp]
      rw [hb, ha, mul_zero, mul_zero]

theorem filter_pos_locSum (img : List AnchorT) :
    (img.map (fun a =>
        (List.zipWith (fun l g => abs_smooth (l - g)) a.loc a.gloc).sum
          * posInd a)).sum
      = ((img.filter (fun a => 0 < a.gclass)).map (fun a =>
          (List.zipWith (fun l g => abs_smooth (l - g)) a.loc a.gloc).sum)).sum := by
  induction img with
  | nil => rfl
  | cons a t ih =>
    simp only [List.map_cons, List.sum_cons, List.filter_cons]
    by_cases hp : 0 < a.gclass
    · rw [if_pos (by simpa using hp), List.map_cons, List.sum_cons, ih, posInd,
        if_pos hp, mul_one]
    · rw [if_neg (by simpa using hp), ih, posInd, if_neg hp, mul_zero, zero_add]

theorem batch_posCount_locPerturb {batch batch' : List (List AnchorT)}
    (hrel : List.Forall₂ (List.Forall₂ locPerturb) batch batch') :
    (batch'.map posCount).sum = (batch.map posCount).sum := by
  induction hrel with
  | nil => rfl
  | cons hab htail ih =>
    simp only [List.map_cons, List.sum_cons]
    rw [ih, posCount_locPerturb hab]

theorem batch_locSum_locPerturb {batch batch' : List (List AnchorT)}
    (hrel : List.Forall₂ (List.Forall₂ locPerturb) batch batch') :
    (batch'.map (fun img => (img.map (fun a =>
        (List.zipWith (fun l g => abs_smooth (l - g)) a.loc a.gloc).sum
          * posInd a)).sum)).sum
      = (batch.map (fun img => (img.map (fun a =>
          (List.zipWith (fun l g => abs_smooth (l - g)) a.loc a.gloc).sum
            * posInd a)).sum)).sum := by
  induction hrel with
  | nil => rfl
  | cons hab htail ih =>
    simp only [List.map_cons, List.sum_cons]
    rw [ih, locSum_locPerturb hab]

/-- C5: the localization loss depends only on positive anchors — for two
batches that agree everywhere except in the predicted localization of
background-labeled anchors the localization loss is identical, and when
N > 0 it equals `alpha` times the smooth-L1 penalty summed over positive
anchors only, divided by N. -/
theorem loc_loss_masking_c5 (ce : List ℚ → ℤ → ℚ) (r al lsm : ℚ)
    (batch batch' : List (List AnchorT))
    (hrel : List.Forall₂ (List.Forall₂ locPerturb) batch batch') :
    (ssd_losses ce r al lsm batch').2 = (ssd_losses ce r al lsm batch).2
    ∧ (0 < (batch.map posCount).sum →
        (ssd_losses ce r al lsm batch).2
          = al * (batch.map (fun img =>
              ((img.filter (fun a => 0 < a.gclass)).map (fun a =>
                (List.zipWith (fun l g => abs_smooth (l - g)) a.loc a.gloc).sum)).sum)).sum
            / (batch.map posCount).sum) := by
  constructor
  · simp only [ssd_losses]
    rw [batch_posCount_locPerturb hrel, batch_locSum_locPerturb hrel]
  · intro hN
    simp only [ssd_losses, if_pos hN]
    congr 2
    exact congrArg List.sum (List.map_congr_left fun img _ => filter_pos_locSum img)

/-- A one-image batch: one positive anchor, one background anchor. -/
def batchA : List (List AnchorT) :=
  [[⟨[1/10], [0, 1], [2, 3], 1, [2, 3], 1⟩, ⟨[9/10], [1, 0], [0, 0], 0, [0, 0], 0⟩]]

/-- `batchA` with the background anchor's predicted localization moved. -/
def batchB : List (List AnchorT) :=
  [[⟨[1/10], [0, 1], [2, 3], 1, [2, 3], 1⟩, ⟨[9/10], [1, 0], [7, 8], 0, [0, 0], 0⟩]]

/-- Witness for C5 on a concrete pair of batches differing only in the
background anchor's predicted localization. -/
theorem loc_loss_masking_c5_witness :
    List.Forall₂ (List.Forall₂ locPerturb) batchA batchB
    ∧ ((ssd_losses ceArb 3 1 0 batchB).2 = (ssd_losses ceArb 3 1 0 batchA).2
      ∧ (0 < (batchA.map posCount).sum →
          (ssd_losses ceArb 3 1 0 batchA).2
            = 1 * (batchA.map (fun img =>
                ((img.filter (fun a => 0 < a.gclass)).map (fun a =>
                  (List.zipWith (fun l g => abs_smooth (l - g)) a.loc a.gloc).sum)).sum)).sum
              / (batchA.map posCount).sum)) :=
  ⟨by simp [batchA, batchB, List.forall₂_cons, locPerturb],
   loc_loss_masking_c5 ceArb 3 1 0 batchA batchB
     (by simp [batchA, batchB, List.forall₂_cons, locPerturb])⟩

theorem count_facts_of_sorted (s : List ℚ) (hs : List.Sorted (· ≤ ·) s)
    (k : ℕ) (c : ℚ) (hk1 : 1 ≤ k) (hc : s[k - 1]? = some c) :
    k ≤ s.countP (fun v => v ≤ c) ∧ s.countP (fun v => v < c) < k := by
  obtain ⟨hlt, hgetc⟩ := List.getElem?_eq_some.mp hc
  have hk2 : k ≤ s.length := by omega
  have hpw := List.pairwise_iff_getElem.mp hs
  constructor
  · have h1 : ∀ x ∈ s.take k, decide (x ≤ c) = true := by
      intro x hx
      rw [List.mem_iff_getElem] at hx
      obtain ⟨i, hi, rfl⟩ := hx
      rw [decide_eq_true_eq, List.getElem_take]
      have hi' : i < s.length := by
        rw [List.length_take] at hi; omega
      rcases Nat.lt_or_ge i (k - 1) with hik | hik
      · have h2 := hpw i (k - 1) hi' hlt hik
        rw [hgetc] at h2
        exact h2
      · have hieq : i = k - 1 := by
          rw [List.length_take] at hi; omega
        subst hieq
        exact le_of_eq hgetc
    have h2 : (s.take k).countP (fun v => v ≤ c) = k := by
      rw [List.countP_eq_length.mpr h1, List.length_take]
      omega
    calc k = (s.take k).countP (fun v => v ≤ c) := h2.symm
      _ ≤ s.countP (fun v => v ≤ c) := by
          conv_rhs => rw [← List.take_append_drop k s]
          rw [List.countP_append]
          omega
  · have h3 : ∀ x ∈ s.drop (k - 1), ¬ (decide (x < c) = true) := by
      intro x hx
      rw [List.mem_iff_getElem] at hx
      obtain ⟨j, hj, rfl⟩ := hx
      simp only [decide_eq_true_eq, not_lt, List.getElem_drop]
      have hj' : k - 1 + j < s.length := by
        rw [List.length_drop] at hj; omega
      rcases Nat.eq_zero_or_pos j with hj0 | hj0
      · subst hj0
        simp only [Nat.add_zero]
        exact le_of_eq hgetc.symm
      · have h4 := hpw (k - 1) (k - 1 + j) hlt hj' (by omega)
        rw [hgetc] at h4
        exact h4
    have h4 : (s.drop (k - 1)).countP (fun v => v < c) = 0 :=
      List.countP_eq_zero.mpr h3
    conv_lhs => rw [← List.take_append_drop (k - 1) s]
    rw [List.countP_append, h4]
    have h5 : (s.take (k - 1)).countP (fun v => v < c) ≤ k - 1 := by
      calc (s.take (k - 1)).countP (fun v => v < c)
          ≤ (s.take (k - 1)).length := List.countP_le_length _
        _ ≤ k - 1 := by rw [List.length_take]; omega
    omega

theorem posCount_nonneg (img : List AnchorT) : 0 ≤ posCount img := by
  apply List.sum_nonneg
  intro x hx
  simp only [List.mem_map] at hx
  obtain ⟨a, _, rfl⟩ := hx
  rw [posInd]
  split <;> norm_num

theorem negCount_nonneg (img : List AnchorT) : 0 ≤ negCount img := by
  apply List.sum_nonneg
  intro x hx
  simp only [List.mem_map] at hx
  obtain ⟨a, _, rfl⟩ := hx
  rw [negInd]
  split <;> norm_num

theorem negCount_le_length (img : List AnchorT) :
    negCount img ≤ (img.length : ℚ) := by
  induction img with
  | nil => simp [negCount]
  | cons a t ih =>
    simp only [negCount, List.map_cons, List.sum_cons, List.length_cons] at ih ⊢
    have ha : negInd a ≤ 1 := by rw [negInd]; split <;> norm_num
    push_cast
    linarith

/-- C2: for an image with a positive anchor (and a well-defined positive
target count `n_neg = floor(min(#negatives, n_pos * negative_ratio))`),
the selected hard negatives are exactly the negative anchors whose mining
value (background confidence for negatives, 1.0 for positives) is `<=`
the `n_neg`-th smallest mining value — the cutoff is characterised as the
unique value with at least `n_neg` mining values `<=` it and fewer than
`n_neg` strictly below it, so boundary ties are included and every
selected anchor is negative. -/
theorem hard_negative_selection_c2 (r : ℚ) (img : List AnchorT)
    (hr : 0 ≤ r) (hpos : 0 < posCount img) (hneg : 1 ≤ nNegOf r img) :
    nNegOf r img = (⌊min (negCount img) (posCount img * r)⌋).toNat
    ∧ ∃ cutoff : ℚ,
        nNegOf r img ≤ (img.map nvalue).countP (fun v => v ≤ cutoff)
        ∧ (img.map nvalue).countP (fun v => v < cutoff) < nNegOf r img
        ∧ selectedNegImage r img
          = img.map (fun a =>
              if 0 < a.gclass then 0 else if nvalue a ≤ cutoff then 1 else 0) := by
  have hmin : 0 ≤ min (negCount img) (posCount img * r) :=
    le_min (negCount_nonneg img) (mul_nonneg (posCount_nonneg img) hr)
  have hfloor : nNegOf r img = (⌊min (negCount img) (posCount img * r)⌋).toNat := by
    rw [nNegOf, ratTrunc, if_pos hmin]
  have hklen : nNegOf r img ≤ img.length := by
    rw [hfloor, Int.toNat_le]
    calc ⌊min (negCount img) (posCount img * r)⌋
        ≤ ⌊negCount img⌋ := Int.floor_le_floor (min_le_left _ _)
      _ ≤ ⌊(img.length : ℚ)⌋ := Int.floor_le_floor (negCount_le_length img)
      _ = (img.length : ℤ) := Int.floor_natCast _
  have hidx : nNegOf r img - 1
      < (List.insertionSort (· ≤ ·) (img.map nvalue)).length := by
    rw [List.length_insertionSort, List.length_map]; omega
  have hc : (List.insertionSort (· ≤ ·) (img.map nvalue))[nNegOf r img - 1]?
      = some (miningCutoff r img) := by
    rw [List.getElem?_eq_getElem hidx, miningCutoff, List.getD_eq_getElem?_getD,
      List.getElem?_eq_getElem hidx, Option.getD_some]
  have hsorted : List.Sorted (· ≤ ·)
      (List.insertionSort (· ≤ ·) (img.map nvalue)) :=
    List.sorted_insertionSort _ _
  obtain ⟨hA, hB⟩ := count_facts_of_sorted _ hsorted (nNegOf r img)
    (miningCutoff r img) hneg hc
  have hperm := List.perm_insertionSort (· ≤ ·) (img.map nvalue)
  refine ⟨hfloor, miningCutoff r img, ?_, ?_, ?_⟩
  · rw [← hperm.countP_eq]
    exact hA
  · rw [← hperm.countP_eq]
    exact hB
  · rw [selectedNegImage, if_pos hpos]
    refine List.map_congr_left fun a _ => ?_
    by_cases hp : 0 < a.gclass
    · rw [if_neg (fun hand => hand.1 hp), if_pos hp]
    · by_cases hle : nvalue a ≤ miningCutoff r img
      · rw [if_pos ⟨hp, hle⟩, if_neg hp, if_pos hle]
      · rw [if_neg (fun hand => hle hand.2), if_neg hp, if_neg hle]

/-- A concrete image: one positive anchor and three negatives with
background confidences 9/10, 2/10 and 5/10. -/
def imgMine : List AnchorT :=
  [⟨[1/10], [0], [0], 1, [0], 0⟩, ⟨[9/10], [0], [0], 0, [0], 0⟩,
   ⟨[2/10], [0], [0], 0, [0], 0⟩, ⟨[5/10], [0], [0], 0, [0], 0⟩]

/-- Witness for C2 on `imgMine` with negative ratio 2 (so n_neg = 2). -/
theorem hard_negative_selection_c2_witness :
    (0 : ℚ) ≤ 2 ∧ 0 < posCount imgMine ∧ 1 ≤ nNegOf 2 imgMine
    ∧ (nNegOf 2 imgMine = (⌊min (negCount imgMine) (posCount imgMine * 2)⌋).toNat
      ∧ ∃ cutoff : ℚ,
          nNegOf 2 imgMine ≤ (imgMine.map nvalue).countP (fun v => v ≤ cutoff)
          ∧ (imgMine.map nvalue).countP (fun v => v < cutoff) < nNegOf 2 imgMine
          ∧ selectedNegImage 2 imgMine
            = imgMine.map (fun a =>
                if 0 < a.gclass then 0 else if nvalue a ≤ cutoff then 1 else 0)) :=
  ⟨by norm_num, by norm_num [imgMine, posCount, posInd],
   by norm_num [imgMine, nNegOf, ratTrunc, negCount, posCount, negInd, posInd,
     min_def],
   hard_negative_selection_c2 2 imgMine (by norm_num)
     (by norm_num [imgMine, posCount, posInd])
     (by norm_num [imgMine, nNegOf, ratTrunc, negCount, posCount, negInd, posInd,
       min_def])⟩

end SSD
